import Mathlib

/-!
Verification of a Go parser-combinator library over streaming input.

The repository contains two variants of the input cursor:

* the chunked `State` (a lazy linked chain of `data` nodes pulled from an
  `io.Reader`), with `Rune`, `Byte`, `consume`, `nextDataState`, `keepBytes`;
* an in-memory `State` (a plain `buffer []byte` plus `offset`), which is the
  variant the combinator file (`AndThen`, `ExactString`, `ExactBytes`,
  `Sequence2`, `ConditionRune`, `GetString`, `GetBytes`, `GetPositions`)
  compiles against.

Both are embedded below: namespace `Chunked` for the former, `Simple` for the
latter, `Utf8` for the scalar-value decoder (the Go standard library's
`utf8.DecodeRune`, which both variants call).  Bytes are modelled as `Nat`
(always `< 256` in the inputs we build), byte strings as `List Nat`, runes as
their scalar value in `Nat`.
-/

namespace Utf8

/-- The Go constant `utf8.RuneError` (U+FFFD), returned by `DecodeRune` both
for malformed input and for a well-formed encoding of U+FFFD itself. -/
def runeErrorVal : Nat := 0xFFFD

/-- Lower bound of the accepted second byte, per Go's `acceptRanges` table
indexed through `first[b0]`. -/
def acceptLo (b0 : Nat) : Nat :=
  if b0 = 0xE0 then 0xA0 else if b0 = 0xF0 then 0x90 else 0x80

/-- Upper bound of the accepted second byte, per Go's `acceptRanges` table. -/
def acceptHi (b0 : Nat) : Nat :=
  if b0 = 0xED then 0x9F else if b0 = 0xF4 then 0x8F else 0xBF

/-- Go's `utf8.DecodeRune`: returns the decoded scalar value and its width.
On empty input it returns `(RuneError, 0)`; on malformed or truncated input,
`(RuneError, 1)`.  Go checks `n < sz` before inspecting the continuation
bytes; here the missing-byte cases fall out of the list patterns instead,
which yields the same `(RuneError, 1)` result in every such case. -/
def decodeRune : List Nat → Nat × Nat
  | [] => (runeErrorVal, 0)
  | b0 :: rest =>
    if b0 < 0x80 then (b0, 1)
    else if b0 < 0xC2 ∨ 0xF4 < b0 then (runeErrorVal, 1)
    else
      match rest with
      | [] => (runeErrorVal, 1)
      | b1 :: rest1 =>
        if b1 < acceptLo b0 ∨ acceptHi b0 < b1 then (runeErrorVal, 1)
        else if b0 < 0xE0 then (b0 % 0x20 * 0x40 + b1 % 0x40, 2)
        else
          match rest1 with
          | [] => (runeErrorVal, 1)
          | b2 :: rest2 =>
            if b2 < 0x80 ∨ 0xBF < b2 then (runeErrorVal, 1)
            else if b0 < 0xF0 then
              (b0 % 0x10 * 0x1000 + b1 % 0x40 * 0x40 + b2 % 0x40, 3)
            else
              match rest2 with
              | [] => (runeErrorVal, 1)
              | b3 :: _ =>
                if b3 < 0x80 ∨ 0xBF < b3 then (runeErrorVal, 1)
                else (b0 % 8 * 0x40000 + b1 % 0x40 * 0x1000 +
                      b2 % 0x40 * 0x40 + b3 % 0x40, 4)

/-- A Unicode scalar value: in range and not a surrogate. -/
def validScalar (r : Nat) : Prop :=
  r ≤ 0x10FFFF ∧ ¬ (0xD800 ≤ r ∧ r ≤ 0xDFFF)

/-- The (unique) UTF-8 encoding of a scalar value, as in Go's
`utf8.EncodeRune` restricted to valid scalars. -/
def encodeRune (r : Nat) : List Nat :=
  if r < 0x80 then [r]
  else if r < 0x800 then [0xC0 + r / 0x40, 0x80 + r % 0x40]
  else if r < 0x10000 then
    [0xE0 + r / 0x1000, 0x80 + r / 0x40 % 0x40, 0x80 + r % 0x40]
  else
    [0xF0 + r / 0x40000, 0x80 + r / 0x1000 % 0x40,
     0x80 + r / 0x40 % 0x40, 0x80 + r % 0x40]

/-- `starts p l`: the list `p` is an initial segment of `l`. -/
def starts (p l : List Nat) : Prop := ∃ t, p ++ t = l

/-- A byte sequence is malformed when it is nonempty and no valid scalar
value's encoding appears at its head (spec: "malformed sequence, not merely
truncated by a boundary"; a sequence truncated by the end of the whole input
is also malformed in this sense). -/
def Malformed (l : List Nat) : Prop :=
  l ≠ [] ∧ ∀ r, validScalar r → ¬ starts (encodeRune r) l

theorem starts_trans {a b c : List Nat} (h1 : starts a b) (h2 : starts b c) :
    starts a c := by
  obtain ⟨t1, rfl⟩ := h1
  obtain ⟨t2, rfl⟩ := h2
  exact ⟨t1 ++ t2, by simp⟩

theorem starts_append (a t : List Nat) : starts a (a ++ t) := ⟨t, rfl⟩

theorem starts_append_left {a b : List Nat} (c : List Nat) (h : starts a b) :
    starts (c ++ a) (c ++ b) := by
  obtain ⟨t, rfl⟩ := h
  exact ⟨t, by simp⟩

theorem starts_take (l : List Nat) (n : Nat) : starts (l.take n) l :=
  ⟨l.drop n, l.take_append_drop n⟩

/-- Turn the `acceptLo` bound into a case disjunction usable by `omega`. -/
theorem acceptLo_cases {b0 b1 : Nat} (h : acceptLo b0 ≤ b1) :
    (b0 = 0xE0 ∧ 0xA0 ≤ b1) ∨ (b0 ≠ 0xE0 ∧ b0 = 0xF0 ∧ 0x90 ≤ b1) ∨
    (b0 ≠ 0xE0 ∧ b0 ≠ 0xF0 ∧ 0x80 ≤ b1) := by
  unfold acceptLo at h
  split_ifs at h with he hf
  · exact Or.inl ⟨he, h⟩
  · exact Or.inr (Or.inl ⟨he, hf, h⟩)
  · exact Or.inr (Or.inr ⟨he, hf, h⟩)

/-- Turn the `acceptHi` bound into a case disjunction usable by `omega`. -/
theorem acceptHi_cases {b0 b1 : Nat} (h : b1 ≤ acceptHi b0) :
    (b0 = 0xED ∧ b1 ≤ 0x9F) ∨ (b0 ≠ 0xED ∧ b0 = 0xF4 ∧ b1 ≤ 0x8F) ∨
    (b0 ≠ 0xED ∧ b0 ≠ 0xF4 ∧ b1 ≤ 0xBF) := by
  unfold acceptHi at h
  split_ifs at h with he hf
  · exact Or.inl ⟨he, h⟩
  · exact Or.inr (Or.inl ⟨he, hf, h⟩)
  · exact Or.inr (Or.inr ⟨he, hf, h⟩)

theorem two_byte_ok {b0 b1 : Nat} (h0 : 0xC2 ≤ b0) (h0h : b0 < 0xE0)
    (h1 : acceptLo b0 ≤ b1) (h1h : b1 ≤ acceptHi b0) :
    validScalar (b0 % 0x20 * 0x40 + b1 % 0x40) ∧
    encodeRune (b0 % 0x20 * 0x40 + b1 % 0x40) = [b0, b1] := by
  have c1 := acceptLo_cases h1
  have c2 := acceptHi_cases h1h
  constructor
  · unfold validScalar
    omega
  · unfold encodeRune
    rw [if_neg (by omega), if_pos (by omega)]
    simp only [List.cons.injEq, and_true]
    omega

theorem three_byte_ok {b0 b1 b2 : Nat} (h0 : 0xE0 ≤ b0) (h0h : b0 < 0xF0)
    (h1 : acceptLo b0 ≤ b1) (h1h : b1 ≤ acceptHi b0)
    (h2 : 0x80 ≤ b2) (h2h : b2 ≤ 0xBF) :
    validScalar (b0 % 0x10 * 0x1000 + b1 % 0x40 * 0x40 + b2 % 0x40) ∧
    encodeRune (b0 % 0x10 * 0x1000 + b1 % 0x40 * 0x40 + b2 % 0x40)
      = [b0, b1, b2] := by
  have c1 := acceptLo_cases h1
  have c2 := acceptHi_cases h1h
  constructor
  · unfold validScalar
    omega
  · unfold encodeRune
    rw [if_neg (by omega), if_neg (by omega), if_pos (by omega)]
    simp only [List.cons.injEq, and_true]
    omega

theorem four_byte_ok {b0 b1 b2 b3 : Nat} (h0 : 0xF0 ≤ b0) (h0h : b0 ≤ 0xF4)
    (h1 : acceptLo b0 ≤ b1) (h1h : b1 ≤ acceptHi b0)
    (h2 : 0x80 ≤ b2) (h2h : b2 ≤ 0xBF) (h3 : 0x80 ≤ b3) (h3h : b3 ≤ 0xBF) :
    validScalar (b0 % 8 * 0x40000 + b1 % 0x40 * 0x1000 +
      b2 % 0x40 * 0x40 + b3 % 0x40) ∧
    encodeRune (b0 % 8 * 0x40000 + b1 % 0x40 * 0x1000 +
      b2 % 0x40 * 0x40 + b3 % 0x40) = [b0, b1, b2, b3] := by
  have c1 := acceptLo_cases h1
  have c2 := acceptHi_cases h1h
  constructor
  · unfold validScalar
    omega
  · unfold encodeRune
    rw [if_neg (by omega), if_neg (by omega), if_neg (by omega)]
    simp only [List.cons.injEq, and_true]
    omega

/-- Soundness of a successful decode: when `decodeRune` does not report
`RuneError`, the decoded value is a valid scalar whose encoding is an initial
segment of the input.  This is the key fact tying the decoder to the
spec-level notion of a malformed sequence. -/
theorem decode_ok_starts (l : List Nat)
    (h : (decodeRune l).1 ≠ runeErrorVal) :
    validScalar (decodeRune l).1 ∧ starts (encodeRune (decodeRune l).1) l := by
  match l with
  | [] => simp [decodeRune] at h
  | b0 :: rest =>
    by_cases h0 : b0 < 0x80
    · simp only [decodeRune, if_pos h0] at h ⊢
      refine ⟨⟨by omega, by omega⟩, ?_⟩
      simpa [encodeRune, if_pos h0] using starts_append [b0] rest
    · by_cases h1 : b0 < 0xC2 ∨ 0xF4 < b0
      · simp [decodeRune, if_neg h0, if_pos h1] at h
      · match rest with
        | [] => simp [decodeRune, if_neg h0, if_pos h1, if_neg h1] at h
        | b1 :: rest1 =>
          by_cases h2 : b1 < acceptLo b0 ∨ acceptHi b0 < b1
          · simp [decodeRune, if_neg h0, if_neg h1, if_pos h2] at h
          · have h2a : acceptLo b0 ≤ b1 := by omega
            have h2b : b1 ≤ acceptHi b0 := by omega
            by_cases h3 : b0 < 0xE0
            · simp only [decodeRune, if_neg h0, if_neg h1, if_neg h2,
                if_pos h3] at h ⊢
              obtain ⟨hv, he⟩ := two_byte_ok (by omega) h3 h2a h2b
              exact ⟨hv, he ▸ ⟨rest1, rfl⟩⟩
            · match rest1 with
              | [] =>
                simp [decodeRune, if_neg h0, if_neg h1, if_neg h2, if_neg h3] at h
              | b2 :: rest2 =>
                by_cases h4 : b2 < 0x80 ∨ 0xBF < b2
                · simp [decodeRune, if_neg h0, if_neg h1, if_neg h2, if_neg h3,
                    if_pos h4] at h
                · have h4a : 0x80 ≤ b2 := by omega
                  have h4b : b2 ≤ 0xBF := by omega
                  by_cases h5 : b0 < 0xF0
                  · simp only [decodeRune, if_neg h0, if_neg h1, if_neg h2,
                      if_neg h3, if_neg h4, if_pos h5] at h ⊢
                    obtain ⟨hv, he⟩ :=
                      three_byte_ok (by omega) h5 h2a h2b h4a h4b
                    exact ⟨hv, he ▸ ⟨rest2, rfl⟩⟩
                  · match rest2 with
                    | [] =>
                      simp [decodeRune, if_neg h0, if_neg h1, if_neg h2,
                        if_neg h3, if_neg h4, if_neg h5] at h
                    | b3 :: rest3 =>
                      by_cases h6 : b3 < 0x80 ∨ 0xBF < b3
                      · simp [decodeRune, if_neg h0, if_neg h1, if_neg h2,
                          if_neg h3, if_neg h4, if_neg h5, if_pos h6] at h
                      · have h6a : 0x80 ≤ b3 := by omega
                        have h6b : b3 ≤ 0xBF := by omega
                        simp only [decodeRune, if_neg h0, if_neg h1, if_neg h2,
                          if_neg h3, if_neg h4, if_neg h5, if_neg h6] at h ⊢
                        obtain ⟨hv, he⟩ :=
                          four_byte_ok (by omega) (by omega) h2a h2b
                            h4a h4b h6a h6b
                        exact ⟨hv, he ▸ ⟨rest3, rfl⟩⟩

/-- A list whose head is malformed cannot decode successfully. -/
theorem malformed_decodes_runeError {l t : List Nat} (hm : Malformed l)
    (ht : starts t l) (hd : (decodeRune t).1 ≠ runeErrorVal) :
    False := by
  obtain ⟨hv, hs⟩ := decode_ok_starts t hd
  exact hm.2 _ hv (starts_trans hs ht)

end Utf8

/-- `Position` — byte offset plus 1-based line and column, as produced by
`State.Position()` in both variants. -/
structure Position where
  offset : Nat
  line : Nat
  column : Nat
deriving DecidableEq, Repr

example : Utf8.decodeRune [0xE2, 0x88, 0x9E] = (0x221E, 3) := by decide
example : Utf8.decodeRune [0xEF, 0xBF, 0xBD] = (0xFFFD, 3) := by decide
example : Utf8.decodeRune [0x66, 0x6F] = (0x66, 1) := by decide
example : Utf8.decodeRune [0xE2] = (0xFFFD, 1) := by decide

/-!
The in-memory `State` of the repository (`buffer []byte`, `offset`,
`lineCount`, `lineOffset`), the variant the combinator file compiles
against: its `Rune` decodes at `buffer[offset:]` and never returns an
error (Go's `DecodeRune` on an empty slice yields `(RuneError, 0)` and
`consume` simply adds the width), while its `Byte` indexes
`buffer[offset]` directly, which panics when out of range.
-/

namespace Simple

/-- The in-memory `State`: `buffer`, `offset`, `lineCount`, `lineOffset`.
The Go zero value `State{}` corresponds to `⟨[], 0, 0, 0⟩` (a nil slice
behaves like an empty one under slicing and `len`). -/
structure State where
  buffer : List Nat
  offset : Nat
  lineCount : Nat
  lineOffset : Nat
deriving DecidableEq, Repr

/-- `State.consume` of the in-memory variant: advances `offset` by `size`
and touches nothing else (no line/column bookkeeping; the Go error result
is always nil and is dropped here). -/
def State.consume (s : State) (size : Nat) : State :=
  { s with offset := s.offset + size }

/-- `State.Rune`: `utf8.DecodeRune(s.buffer[s.offset:])` then `consume`.
Total and never an error: on exhausted input the decode yields
`(RuneError, 0)` and the state is returned unchanged with a nil error. -/
def State.rune (s : State) : Nat × State :=
  let d := Utf8.decodeRune (s.buffer.drop s.offset)
  (d.1, s.consume d.2)

/-- `State.Byte`: `s.buffer[s.offset]` then `consume 1`.  `none` models the
index-out-of-range panic Go raises when `offset ≥ len(buffer)`; there is no
end-of-input error in this variant. -/
def State.byte (s : State) : Option (Nat × State) :=
  if h : s.offset < s.buffer.length then
    some (s.buffer.get ⟨s.offset, h⟩, s.consume 1)
  else none

/-- `State.Line()`: `lineCount + 1`. -/
def State.Line (s : State) : Nat := s.lineCount + 1

/-- `State.Column()`: `offset - lineOffset`. -/
def State.Column (s : State) : Nat := s.offset - s.lineOffset

/-- `State.Position()`. -/
def State.Position (s : State) : Position :=
  ⟨s.offset, s.Line, s.Column⟩

/-- The state `DoParse` builds from an input string:
`State{buffer: []byte(input), offset: 0}`. -/
def initState (input : List Nat) : State := ⟨input, 0, 0, 0⟩

end Simple

/-!
The combinator core (`parser.go`), compiled against the in-memory
`Simple.State`.  A Go parser returns `(T, State, error)`; this is modelled
as `PResult`: `.ok t s` for a nil error, `.err e s` for a non-nil error
together with the returned state (the `T` component is the zero value and
unused), and `.fault` for a panic inside the parser (only reachable through
`State.Byte`).  `ExactString` ranges over the token's runes; tokens are
modelled directly as their list of scalar values.
-/

namespace Comb

/-- Errors a combinator can return: `ErrNoMatch`, or an error produced by a
`Sequence2` mapper. -/
inductive PErr where
  | noMatch
  | mapFail
deriving DecidableEq, Repr

/-- Result of running a parser: models Go's `(T, State, error)` triple. -/
inductive PResult (T : Type) where
  | ok (t : T) (s : Simple.State)
  | err (e : PErr) (s : Simple.State)
  | fault
deriving DecidableEq

/-- `Parser[T] = func(State) (T, State, error)`. -/
def Parser (T : Type) : Type := Simple.State → PResult T

/-- `AndThen`: runs `parser`; on success applies `handler` to the value and
runs the resulting parser from the next state, returning its result as-is;
on failure returns the original state `s` with the error. -/
def AndThen {T U : Type} (parser : Parser T) (handler : T → Parser U) :
    Parser U := fun s =>
  match parser s with
  | .ok t next => handler t next
  | .err e _ => .err e s
  | .fault => .fault

/-- Loop body of `ExactString`: ranges over the token's runes, reading with
`State.Rune` (which never errors in this variant, so the Go error check is
dead code); a mismatch returns `ErrNoMatch` with the outer original state
`s0`. -/
def exactStringGo (s0 : Simple.State) : List Nat → Simple.State → PResult Unit
  | [], next => .ok () next
  | tr :: rest, next =>
    let rn := next.rune
    if tr = rn.1 then exactStringGo s0 rest rn.2
    else .err .noMatch s0

/-- `ExactString(token)`. -/
def ExactString (token : List Nat) : Parser Unit := fun s =>
  exactStringGo s token s

/-- Loop body of `ExactBytes`: reads with `State.Byte`; a panic propagates,
a mismatch returns `ErrNoMatch` with the outer original state `s0`. -/
def exactBytesGo (s0 : Simple.State) : List Nat → Simple.State → PResult Unit
  | [], next => .ok () next
  | tb :: rest, next =>
    match next.byte with
    | none => .fault
    | some (b, n2) =>
      if tb = b then exactBytesGo s0 rest n2
      else .err .noMatch s0

/-- `ExactBytes(token)`. -/
def ExactBytes (token : List Nat) : Parser Unit := fun s =>
  exactBytesGo s token s

/-- `Sequence2`: runs `tParser` from `s`; on success runs `uParser(s)` —
from the ORIGINAL state `s`, exactly as written in the source (`uParser(s)`,
not `uParser(next)`) — then applies `mapper`; every failure returns `s`. -/
def Sequence2 {T U R : Type} (tParser : Parser T) (uParser : Parser U)
    (mapper : T → U → Except PErr R) : Parser R := fun s =>
  match tParser s with
  | .fault => .fault
  | .err e _ => .err e s
  | .ok t _ =>
    match uParser s with
    | .fault => .fault
    | .err e _ => .err e s
    | .ok u next =>
      match mapper t u with
      | .error e => .err e s
      | .ok r => .ok r next

/-- `ConditionRune(cond)`: reads one rune; if the predicate rejects it,
returns `ErrNoMatch` with the pre-read state. -/
def ConditionRune (cond : Nat → Bool) : Parser Nat := fun s =>
  let rn := s.rune
  if cond rn.1 then .ok rn.1 rn.2
  else .err .noMatch s

/-- `GetString`: records `start := s.offset`, runs the parser, then reads
`end := s.offset` — from the ORIGINAL state `s` again, exactly as in the
source — and returns `string(s.buffer[start:end])`. -/
def GetString {T : Type} (parser : Parser T) : Parser (List Nat) := fun s =>
  let start := s.offset
  match parser s with
  | .fault => .fault
  | .err e _ => .err e s
  | .ok _ next =>
    let endp := s.offset
    .ok ((s.buffer.drop start).take (endp - start)) next

/-- `GetBytes`: same shape as `GetString` (the Go copy into a fresh slice
yields the same list value). -/
def GetBytes {T : Type} (parser : Parser T) : Parser (List Nat) := fun s =>
  let start := s.offset
  match parser s with
  | .fault => .fault
  | .err e _ => .err e s
  | .ok _ next =>
    let endp := s.offset
    .ok ((s.buffer.drop start).take (endp - start)) next

/-- `GetPositions`: records `start := s.Position()`, runs the parser, then
`end := s.Position()` — again from the original `s` — and returns the pair. -/
def GetPositions {T : Type} (parser : Parser T) :
    Parser (Position × Position) := fun s =>
  let start := s.Position
  match parser s with
  | .fault => .fault
  | .err e _ => .err e s
  | .ok _ next => .ok (start, s.Position) next

end Comb

example : (Simple.initState [0x66, 0x6F]).rune
    = (0x66, ⟨[0x66, 0x6F], 1, 0, 0⟩) := by decide
example : Comb.ExactString [0x66, 0x6F] (Simple.initState [0x66, 0x6F])
    = .ok () ⟨[0x66, 0x6F], 2, 0, 0⟩ := by decide

namespace Comb

theorem exactStringGo_err {s0 : Simple.State} :
    ∀ (tok : List Nat) (cur : Simple.State) (e : PErr) (s' : Simple.State),
      exactStringGo s0 tok cur = .err e s' → s' = s0
  | [], cur, e, s', h => by simp [exactStringGo] at h
  | tr :: rest, cur, e, s', h => by
    unfold exactStringGo at h
    dsimp only at h
    split_ifs at h with hc
    · exact exactStringGo_err rest _ e s' h
    · injection h with h1 h2
      exact h2.symm

theorem exactBytesGo_err {s0 : Simple.State} :
    ∀ (tok : List Nat) (cur : Simple.State) (e : PErr) (s' : Simple.State),
      exactBytesGo s0 tok cur = .err e s' → s' = s0
  | [], cur, e, s', h => by simp [exactBytesGo] at h
  | tb :: rest, cur, e, s', h => by
    unfold exactBytesGo at h
    split at h
    · cases h
    · split_ifs at h with hc
      · exact exactBytesGo_err rest _ e s' h
      · injection h with h1 h2
        exact h2.symm

/-- C5 (amended): every combinator of the core except `AndThen` returns the
original pre-attempt state on every failure (`NoMatch`, mapper error, or any
propagated error); `AndThen` does so when its FIRST parser fails, but when
the continuation parser fails `AndThen` returns the continuation's result
unchanged — whose state is the intermediate state after the first parser,
not the original one. -/
theorem failure_restores_state :
    (∀ (tok : List Nat) (s : Simple.State) (e : PErr) (s' : Simple.State),
      ExactString tok s = .err e s' → s' = s) ∧
    (∀ (tok : List Nat) (s : Simple.State) (e : PErr) (s' : Simple.State),
      ExactBytes tok s = .err e s' → s' = s) ∧
    (∀ (T U R : Type) (tp : Parser T) (up : Parser U)
      (m : T → U → Except PErr R) (s : Simple.State) (e : PErr)
      (s' : Simple.State), Sequence2 tp up m s = .err e s' → s' = s) ∧
    (∀ (cond : Nat → Bool) (s : Simple.State) (e : PErr) (s' : Simple.State),
      ConditionRune cond s = .err e s' → s' = s) ∧
    (∀ (T : Type) (p : Parser T) (s : Simple.State) (e : PErr)
      (s' : Simple.State), GetString p s = .err e s' → s' = s) ∧
    (∀ (T : Type) (p : Parser T) (s : Simple.State) (e : PErr)
      (s' : Simple.State), GetBytes p s = .err e s' → s' = s) ∧
    (∀ (T : Type) (p : Parser T) (s : Simple.State) (e : PErr)
      (s' : Simple.State), GetPositions p s = .err e s' → s' = s) ∧
    (∀ (T U : Type) (p : Parser T) (f : T → Parser U) (s : Simple.State)
      (e : PErr) (s1 : Simple.State),
      p s = .err e s1 → AndThen p f s = .err e s) ∧
    (∀ (T U : Type) (p : Parser T) (f : T → Parser U) (s : Simple.State)
      (t : T) (s1 : Simple.State),
      p s = .ok t s1 → AndThen p f s = f t s1) := by
  refine ⟨?_, ?_, ?_, ?_, ?_, ?_, ?_, ?_, ?_⟩
  · intro tok s e s' h
    exact exactStringGo_err tok s e s' h
  · intro tok s e s' h
    exact exactBytesGo_err tok s e s' h
  · intro T U R tp up m s e s' h
    unfold Sequence2 at h
    split at h
    · cases h
    · injection h with h1 h2
      exact h2.symm
    · split at h
      · cases h
      · injection h with h1 h2
        exact h2.symm
      · split at h
        · injection h with h1 h2
          exact h2.symm
        · cases h
  · intro cond s e s' h
    unfold ConditionRune at h
    dsimp only at h
    split_ifs at h with hc
    injection h with h1 h2
    exact h2.symm
  · intro T p s e s' h
    unfold GetString at h
    split at h
    · cases h
    · injection h with h1 h2
      exact h2.symm
    · cases h
  · intro T p s e s' h
    unfold GetBytes at h
    split at h
    · cases h
    · injection h with h1 h2
      exact h2.symm
    · cases h
  · intro T p s e s' h
    unfold GetPositions at h
    split at h
    · cases h
    · injection h with h1 h2
      exact h2.symm
    · cases h
  · intro T U p f s e s1 h
    unfold AndThen
    rw [h]
  · intro T U p f s t s1 h
    unfold AndThen
    rw [h]

/-- Witness for C5's amended theorem: `ExactString("a")` against `"b"` fails
with `NoMatch` and the state it returns is the original one. -/
theorem failure_restores_state_witness :
    ExactString [0x61] (Simple.initState [0x62])
      = .err .noMatch (Simple.initState [0x62]) ∧
    Simple.initState [0x62] = Simple.initState [0x62] :=
  ⟨by decide, failure_restores_state.1 [0x61] (Simple.initState [0x62])
      .noMatch (Simple.initState [0x62]) (by decide)⟩

/-- C5 (counterexample to the claim as stated): when the continuation of
`AndThen` fails, the returned state is the intermediate state after the
first parser (offset 2), not the original pre-attempt state (offset 0):
`AndThen(ExactString("ab"), _ => ExactString("cd"))` against `"abce"`. -/
theorem andThen_failure_returns_advanced_state :
    AndThen (ExactString [0x61, 0x62]) (fun _ => ExactString [0x63, 0x64])
      (Simple.initState [0x61, 0x62, 0x63, 0x65])
      = .err .noMatch ⟨[0x61, 0x62, 0x63, 0x65], 2, 0, 0⟩ ∧
    (⟨[0x61, 0x62, 0x63, 0x65], 2, 0, 0⟩ : Simple.State)
      ≠ Simple.initState [0x61, 0x62, 0x63, 0x65] := by decide

/-- C1: `GetString`/`GetBytes` compute both ends of the captured span from
the pre-parse state `s` (`start := s.offset; ...; end := s.offset`), so a
successful capture is always empty: `GetString(ExactString("foo"))` against
`"foo"` succeeds, consumes the 3 bytes, and returns `""` instead of the
consumed `"foo"`. -/
theorem getString_returns_empty_capture :
    GetString (ExactString [0x66, 0x6F, 0x6F])
      (Simple.initState [0x66, 0x6F, 0x6F])
      = .ok [] ⟨[0x66, 0x6F, 0x6F], 3, 0, 0⟩ ∧
    GetBytes (ExactString [0x66, 0x6F, 0x6F])
      (Simple.initState [0x66, 0x6F, 0x6F])
      = .ok [] ⟨[0x66, 0x6F, 0x6F], 3, 0, 0⟩ := by decide

/-- C2: `Sequence2` runs its second parser from the ORIGINAL state `s`
(`uParser(s)`), not from the state produced by the first parser, so
`Sequence2(ExactString("a"), ExactString("b"))` against `"ab"` fails with
`NoMatch` even though the claim requires it to succeed; `AndThen` does
thread the state and succeeds on the analogous input. -/
theorem sequence2_runs_second_from_original_state :
    Sequence2 (ExactString [0x61]) (ExactString [0x62])
      (fun _ _ => Except.ok ()) (Simple.initState [0x61, 0x62])
      = .err .noMatch (Simple.initState [0x61, 0x62]) ∧
    AndThen (ExactString [0x61]) (fun _ => ExactString [0x62])
      (Simple.initState [0x61, 0x62])
      = .ok () ⟨[0x61, 0x62], 2, 0, 0⟩ := by decide

end Comb

/-- C8 (counterexample to the claim as stated): the in-memory variant's
`Column()` is `offset - lineOffset`, which on a fresh state (the one
`DoParse` builds) is 0, not the claimed 1-based column 1. -/
theorem fresh_simple_state_column_is_zero :
    (Simple.initState [0x61]).Position = ⟨0, 1, 0⟩ ∧
    ((⟨0, 1, 0⟩ : Position) ≠ ⟨0, 1, 1⟩) := by decide

/-!
The chunked `State` (the streaming variant): a current `data` node, an
offset `datap` into its buffer, and position counters.  A `data` node is a
buffer plus an optional reader and an at-most-once-set `next` pointer; since
every pull is deterministic here, a node is modelled by the list of buffers
from it onward (`chunks`), where `chunks.tail` stands for the node's `next`
chain: the node is terminal (`r == nil`, and `next` will never be set)
exactly when the tail is empty, and `nextDataState` is "move to the tail".
The Go zero value `State{}` has a nil `data` pointer, modelled as
`chunks = []`; dereferencing it panics, modelled by the `.fault` result.
-/

namespace Chunked

/-- The chunked `State`: current node-and-successors `chunks`, offset
`datap` into the current buffer, and the `offset`/`line`/`column`
counters. -/
structure State where
  chunks : List (List Nat)
  datap : Nat
  offset : Nat
  line : Nat
  column : Nat
deriving DecidableEq, Repr

/-- `State.Line()`: `line + 1`. -/
def State.Line (s : State) : Nat := s.line + 1

/-- `State.Column()`: `column + 1`. -/
def State.Column (s : State) : Nat := s.column + 1

/-- `State.Position()`. -/
def State.Position (s : State) : Position := ⟨s.offset, s.Line, s.Column⟩

/-- `State.consume(count, v)`: advance `datap` and `offset` by `count`;
`column++`, and on a line feed `line++` with `column` reset to 0. -/
def State.consume (s : State) (count v : Nat) : State :=
  { s with
    datap := s.datap + count
    offset := s.offset + count
    line := if v = 10 then s.line + 1 else s.line
    column := if v = 10 then 0 else s.column + 1 }

/-- `State.nextDataState()`: move to the next node at `datap = 0`, carrying
the position counters unchanged. -/
def State.nextDataState (s : State) : State :=
  { s with chunks := s.chunks.tail, datap := 0 }

/-- Result of `State.Byte`: Go returns `(byte, State, error)`; `.eof`
stands for a nil byte with `io.EOF` (the state returned alongside an error
is never consumed by callers and is omitted), `.fault` for the nil-pointer
panic on a zero `State`. -/
inductive ByteRes where
  | ok (b : Nat) (s : State)
  | eof
  | fault
deriving DecidableEq, Repr

/-- Result of `State.Rune`: as `ByteRes` plus `.invalid p` for
`RuneError{Position}`. -/
inductive RuneRes where
  | ok (r : Nat) (s : State)
  | eof
  | invalid (p : Position)
  | fault
deriving DecidableEq, Repr

/-- `State.Byte`, written as structural recursion on the node chain: read
`buf[datap]` and `consume(1, b)` when available; at the end of the buffer,
move to the next node when one exists or will be pulled (`rest ≠ []`,
i.e. `r != nil || next != nil`), else report `io.EOF`. -/
def byteGo : List (List Nat) → Nat → Nat → Nat → Nat → ByteRes
  | [], _, _, _, _ => .fault
  | buf :: rest, datap, offset, line, column =>
    if h : datap < buf.length then
      let b := buf.get ⟨datap, h⟩
      .ok b (State.consume ⟨buf :: rest, datap, offset, line, column⟩ 1 b)
    else
      match rest with
      | [] => .eof
      | _ :: _ => byteGo rest 0 offset line column

/-- `State.Byte` on the `State` record. -/
def State.Byte (s : State) : ByteRes :=
  byteGo s.chunks s.datap s.offset s.line s.column

/-- `State.Rune`: decode at `buf[datap:]`; if the result is the `RuneError`
value (the source tests only `r == utf8.RuneError`, with no size check) and
the node is terminal, fail with `RuneError{s.Position()}`; otherwise retry on
the current tail concatenated with up to 6 bytes of the next node's buffer,
either failing with `RuneError{s.Position()}` or stepping into the next node
at `datap = rs - (len(buf) - datap)` with the position counters carried
UNCHANGED (as in the source, which does not call `consume` on this path).
A clean decode advances via `consume(rs, r)`.  At the end of the buffer the
read moves to the next node or reports `io.EOF`, as in `Byte`. -/
def runeGo : List (List Nat) → Nat → Nat → Nat → Nat → RuneRes
  | [], _, _, _, _ => .fault
  | buf :: rest, datap, offset, line, column =>
    if datap < buf.length then
      let d := Utf8.decodeRune (buf.drop datap)
      if d.1 = Utf8.runeErrorVal then
        match rest with
        | [] => .invalid ⟨offset, line + 1, column + 1⟩
        | nbuf :: _ =>
          let runeBytes := buf.drop datap ++ nbuf.take 6
          let d2 := Utf8.decodeRune runeBytes
          if d2.1 = Utf8.runeErrorVal then
            .invalid ⟨offset, line + 1, column + 1⟩
          else
            .ok d2.1 ⟨rest, d2.2 - (buf.length - datap), offset, line, column⟩
      else
        .ok d.1 (State.consume ⟨buf :: rest, datap, offset, line, column⟩ d.2 d.1)
    else
      match rest with
      | [] => .eof
      | _ :: _ => runeGo rest 0 offset line column

/-- `State.Rune` on the `State` record. -/
def State.Rune (s : State) : RuneRes :=
  runeGo s.chunks s.datap s.offset s.line s.column

/-- `NewStateString`: one node holding the whole input, no reader. -/
def NewStateString (b : List Nat) : State := ⟨[b], 0, 0, 0, 0⟩

/-- `NewStateBytes`: one node holding a copy of the input, no reader. -/
def NewStateBytes (b : List Nat) : State := ⟨[b], 0, 0, 0, 0⟩

/-- `NewStateReaderSize`, given the successive pull results of the reader
(the chunk sequence is determined by the reader and the chunk size; it is
nonempty because the first node is always created). -/
def NewStateReaderChunks (chain : List (List Nat)) : State := ⟨chain, 0, 0, 0, 0⟩

end Chunked

example : (Chunked.NewStateString [0x61, 0x0A]).Byte
    = .ok 0x61 ⟨[[0x61, 0x0A]], 1, 1, 0, 1⟩ := by decide
example : (Chunked.State.mk [[0x61, 0x0A]] 1 1 0 1).Byte
    = .ok 0x0A ⟨[[0x61, 0x0A]], 2, 2, 1, 0⟩ := by decide
example : (Chunked.State.mk [[0x61], [0x62]] 1 1 0 1).Byte
    = .ok 0x62 ⟨[[0x62]], 1, 2, 0, 2⟩ := by decide
example : (Chunked.NewStateString [0xE2, 0x88, 0x9E]).Rune
    = .ok 0x221E ⟨[[0xE2, 0x88, 0x9E]], 3, 3, 0, 1⟩ := by decide

/-- C3: a well-formed encoding of the sentinel U+FFFD (`EF BF BD`, which is
exactly `encodeRune 0xFFFD`) is REJECTED by the chunked `Rune()`: the source
tests only `r == utf8.RuneError` after decoding, with no size check, so the
valid three-byte decode of the sentinel is indistinguishable from a
malformed sequence and `Rune()` fails with `RuneError` at the sequence start
instead of succeeding — contradicting the claim and the repository's own
test `TestState_Rune_CanProperlyDecodeACorrectlyEncodedRuneErrorValue`. -/
theorem rune_rejects_wellformed_sentinel :
    Utf8.encodeRune 0xFFFD = [0xEF, 0xBF, 0xBD] ∧
    Utf8.decodeRune [0xEF, 0xBF, 0xBD] = (0xFFFD, 3) ∧
    (Chunked.NewStateBytes [0xEF, 0xBF, 0xBD]).Rune
      = .invalid ⟨0, 1, 1⟩ := by decide

/-- C4: the cross-boundary success path of `Rune()` does not advance the
position: starting from the state reached after consuming `"1234567"` of the
input `"1234567∞"` chunked as `[31..37 E2][88 9E]`, decoding the straddling
three-byte rune succeeds with the correct bytes consumed (`datap = 2` in the
next node) but returns `offset = 7` — unchanged — where the claim requires
`7 + 3 = 10` (`line`/`column` are likewise carried unchanged). -/
theorem rune_across_nodes_keeps_offset :
    (Chunked.State.mk
        [[0x31, 0x32, 0x33, 0x34, 0x35, 0x36, 0x37, 0xE2], [0x88, 0x9E]]
        7 7 0 7).Rune
      = .ok 0x221E (Chunked.State.mk [[0x88, 0x9E]] 2 7 0 7) ∧
    (Chunked.State.mk [[0x88, 0x9E]] 2 7 0 7).offset = 7 := by decide

/-- C9: reads on a default/zero-constructed `State`.  The chunked variant
(nil `data` pointer) panics in both `Rune()` and `Byte()`, as the claim
says; but the in-memory variant's `Rune()` returns the scalar 0xFFFD with a
nil error and the state unchanged — silently returning data instead of
panicking, contradicting the claim and the repository's test
`TestState_Rune_PanicsOnZeroState` (its `Byte()` does panic via the
out-of-range index). -/
theorem zero_state_read_behavior :
    (Chunked.State.mk [] 0 0 0 0).Rune = .fault ∧
    (Chunked.State.mk [] 0 0 0 0).Byte = .fault ∧
    (Simple.State.mk [] 0 0 0).byte = none ∧
    (Simple.State.mk [] 0 0 0).rune = (0xFFFD, Simple.State.mk [] 0 0 0) := by
  decide

/-- C6: on any state positioned at a malformed sequence (the remaining
bytes of the whole stream do not begin with any valid scalar's encoding),
`Rune()` fails with `RuneError` carrying the Position of that first byte —
whether the sequence lies within the current node or straddles the node
boundary (the cross-node retry decodes the current tail plus up to 6 bytes
of the next node, and a success there would exhibit a valid encoding at the
head of the stream, which malformedness rules out). -/
theorem rune_malformed_reports_start_position :
    ∀ (buf : List Nat) (rest : List (List Nat)) (datap offset line column : Nat),
      datap < buf.length →
      Utf8.Malformed (buf.drop datap ++ rest.flatten) →
      (Chunked.State.mk (buf :: rest) datap offset line column).Rune
        = .invalid ⟨offset, line + 1, column + 1⟩ := by
  intro buf rest datap offset line column hlt hm
  show Chunked.runeGo (buf :: rest) datap offset line column = _
  unfold Chunked.runeGo
  rw [if_pos hlt]
  dsimp only
  by_cases hd : (Utf8.decodeRune (buf.drop datap)).1 = Utf8.runeErrorVal
  · rw [if_pos hd]
    cases rest with
    | nil => rfl
    | cons nbuf rest2 =>
      have hd2 : (Utf8.decodeRune (buf.drop datap ++ nbuf.take 6)).1
          = Utf8.runeErrorVal := by
        by_contra hc
        refine Utf8.malformed_decodes_runeError hm ?_ hc
        have hfl : (nbuf :: rest2).flatten = nbuf ++ rest2.flatten := by simp
        rw [hfl]
        exact Utf8.starts_append_left _
          (Utf8.starts_trans (Utf8.starts_take nbuf 6)
            (Utf8.starts_append nbuf rest2.flatten))
      dsimp only
      rw [if_pos hd2]
  · exact ((Utf8.malformed_decodes_runeError hm
      (Utf8.starts_append (buf.drop datap) rest.flatten) hd).elim)

/-- The byte sequence `E2 88 61 ...` is malformed: a first byte `E2` demands
two continuation bytes in `80..BF`, and `61` is not one; no other encoding
length fits either. -/
theorem malformed_e2_88_61 (rest : List Nat) :
    Utf8.Malformed (0xE2 :: 0x88 :: 0x61 :: rest) := by
  constructor
  · simp
  · intro r hv hs
    obtain ⟨t, ht⟩ := hs
    unfold Utf8.encodeRune at ht
    split_ifs at ht with h1 h2 h3 <;>
      simp only [List.cons_append, List.nil_append, List.cons.injEq] at ht <;>
      omega

/-- Witness for C6: the repository's own straddling test case — input
`"1234567∞"` truncated to 9 bytes plus `"acbd"`, chunk size 8 — at the state
that has consumed the first 7 bytes: the malformed straddling sequence
`E2 88 61 ...` is reported at offset 7, the offset of its first byte. -/
theorem rune_malformed_reports_start_position_witness :
    7 < 8 ∧
    (Chunked.State.mk
        [[0x31, 0x32, 0x33, 0x34, 0x35, 0x36, 0x37, 0xE2],
         [0x88, 0x61, 0x63, 0x62, 0x64]] 7 7 0 7).Rune
      = .invalid ⟨7, 1, 8⟩ := by
  refine ⟨by decide, ?_⟩
  have hm : Utf8.Malformed
      ([0x31, 0x32, 0x33, 0x34, 0x35, 0x36, 0x37, 0xE2].drop 7
        ++ [[0x88, 0x61, 0x63, 0x62, 0x64]].flatten) := by
    have he : ([0x31, 0x32, 0x33, 0x34, 0x35, 0x36, 0x37, 0xE2].drop 7
        ++ [[0x88, 0x61, 0x63, 0x62, 0x64]].flatten : List Nat)
        = 0xE2 :: 0x88 :: 0x61 :: [0x63, 0x62, 0x64] := by decide
    rw [he]
    exact malformed_e2_88_61 [0x63, 0x62, 0x64]
  exact rune_malformed_reports_start_position
    [0x31, 0x32, 0x33, 0x34, 0x35, 0x36, 0x37, 0xE2]
    [[0x88, 0x61, 0x63, 0x62, 0x64]] 7 7 0 7 (by decide) hm

namespace Chunked

theorem byteGo_line_column :
    ∀ (chunks : List (List Nat)) (datap offset line column b : Nat)
      (s' : State), byteGo chunks datap offset line column = .ok b s' →
      (b = 10 → s'.line = line + 1 ∧ s'.column = 0) ∧
      (b ≠ 10 → s'.line = line ∧ s'.column = column + 1)
  | [], _, _, _, _, _, s', h => by cases h
  | buf :: rest, datap, offset, line, column, b, s', h => by
    unfold byteGo at h
    split_ifs at h with hlt
    · dsimp only at h
      injection h with hb hs
      subst hb
      subst hs
      constructor
      · intro h10
        simp only [List.get_eq_getElem] at h10
        simp [State.consume, h10]
      · intro h10
        simp only [List.get_eq_getElem] at h10
        simp [State.consume, h10]
    · cases rest with
      | nil => cases h
      | cons nbuf rest2 =>
        exact byteGo_line_column (nbuf :: rest2) 0 offset line column b s' h

end Chunked

/-- C8 (amended): for the chunked `State`, `Position()` is 1-based and a
fresh state reports line 1, column 1; consuming a line-feed byte increments
the exposed line and resets the exposed column to 1, and consuming any other
byte increments the exposed column and leaves the line unchanged; the same
holds for `Rune()` whenever the scalar value is decoded within the current
node (the cross-node path of C4 and the in-memory variant's `Column()` do
not satisfy the claim). -/
theorem chunked_line_column_tracking :
    (∀ b : List Nat, (Chunked.NewStateBytes b).Position = ⟨0, 1, 1⟩) ∧
    (∀ (s : Chunked.State) (b : Nat) (s' : Chunked.State),
      s.Byte = .ok b s' →
      (b = 10 → s'.Line = s.Line + 1 ∧ s'.Column = 1) ∧
      (b ≠ 10 → s'.Line = s.Line ∧ s'.Column = s.Column + 1)) ∧
    (∀ (buf : List Nat) (rest : List (List Nat))
      (datap offset line column : Nat),
      datap < buf.length →
      (Utf8.decodeRune (buf.drop datap)).1 ≠ Utf8.runeErrorVal →
      ∀ (r : Nat) (s' : Chunked.State),
        (Chunked.State.mk (buf :: rest) datap offset line column).Rune
          = .ok r s' →
        (r = 10 → s'.Line = line + 1 + 1 ∧ s'.Column = 1) ∧
        (r ≠ 10 → s'.Line = line + 1 ∧ s'.Column = column + 1 + 1)) := by
  refine ⟨?_, ?_, ?_⟩
  · intro b
    rfl
  · intro s b s' h
    have hc := Chunked.byteGo_line_column s.chunks s.datap s.offset s.line
      s.column b s' h
    unfold Chunked.State.Line Chunked.State.Column
    constructor
    · intro h10
      obtain ⟨e1, e2⟩ := hc.1 h10
      omega
    · intro h10
      obtain ⟨e1, e2⟩ := hc.2 h10
      omega
  · intro buf rest datap offset line column hlt hd r s' h
    have hr : (Chunked.State.mk (buf :: rest) datap offset line column).Rune
        = .ok (Utf8.decodeRune (buf.drop datap)).1
          (Chunked.State.consume
            ⟨buf :: rest, datap, offset, line, column⟩
            (Utf8.decodeRune (buf.drop datap)).2
            (Utf8.decodeRune (buf.drop datap)).1) := by
      show Chunked.runeGo (buf :: rest) datap offset line column = _
      unfold Chunked.runeGo
      rw [if_pos hlt]
      dsimp only
      rw [if_neg hd]
    rw [hr] at h
    injection h with hb hs
    subst hb
    subst hs
    unfold Chunked.State.Line Chunked.State.Column
    constructor
    · intro h10
      simp [Chunked.State.consume, h10]
    · intro h10
      simp [Chunked.State.consume, h10]

/-- Witness for C8's amended theorem: consuming the line-feed byte from a
fresh single-node state takes the exposed position from line 1 to line 2,
column 1. -/
theorem chunked_line_column_tracking_witness :
    (Chunked.State.mk [[0x0A]] 0 0 0 0).Byte
      = .ok 10 (Chunked.State.mk [[0x0A]] 1 1 1 0) ∧
    ((Chunked.State.mk [[0x0A]] 1 1 1 0).Line
        = (Chunked.State.mk [[0x0A]] 0 0 0 0).Line + 1 ∧
      (Chunked.State.mk [[0x0A]] 1 1 1 0).Column = 1) :=
  ⟨by decide,
    (chunked_line_column_tracking.2.1 (Chunked.State.mk [[0x0A]] 0 0 0 0) 10
      (Chunked.State.mk [[0x0A]] 1 1 1 0) (by decide)).1 rfl⟩

/-!
Idempotent replay (C7).  Lazy extension of the chain is a side effect: the
first read past a node's end performs a pull and stores the new node into
`next`, while later reads find `next` already set and perform no pull.  To
state this, `Byte` is re-instrumented over the SAME chain with a "world"
`w`: the number of nodes of the full chain materialized so far (nodes
`0 .. w-1` exist).  The node a suffix state points at has index
`N - chunks.length` in the full chain of length `N`; `ensure_next` on node
`i` returns the cached `next` without a pull when `i + 1 < w`, performs
exactly one pull otherwise (the node still holds its reader, i.e. the
suffix continues), or reports the end of the chain.  The result component
is untouched by `w`; only `world` and the pull count change.
-/

namespace Chunked

/-- Result of the world-instrumented `Byte`: the read result, the new
number of materialized nodes, and how many pulls this read performed. -/
structure WByteOut where
  res : ByteRes
  world : Nat
  pulls : Nat
deriving DecidableEq, Repr

/-- World-instrumented `State.Byte` (same logic as `byteGo`, threading the
materialization world of a full chain of length `N`). -/
def byteWGo (N : Nat) : List (List Nat) → Nat → Nat → Nat → Nat → Nat →
    WByteOut
  | [], _, _, _, _, w => ⟨.fault, w, 0⟩
  | buf :: rest, datap, offset, line, column, w =>
    if h : datap < buf.length then
      let b := buf.get ⟨datap, h⟩
      ⟨.ok b (State.consume ⟨buf :: rest, datap, offset, line, column⟩ 1 b),
        w, 0⟩
    else
      match rest with
      | [] => ⟨.eof, w, 0⟩
      | nbuf :: rest2 =>
        let i1 := N - (rest2.length + 1)
        let p := if i1 < w then 0 else 1
        let w2 := max w (i1 + 1)
        let o := byteWGo N (nbuf :: rest2) 0 offset line column w2
        ⟨o.res, o.world, p + o.pulls⟩

/-- `State.Byte` with world instrumentation. -/
def State.ByteW (N : Nat) (s : State) (w : Nat) : WByteOut :=
  byteWGo N s.chunks s.datap s.offset s.line s.column w

/-- Result of a full traversal: the bytes read, whether it ended in
`io.EOF` within the given fuel, and the final world and pull count. -/
structure TravOut where
  out : List Nat
  fin : Bool
  world : Nat
  pulls : Nat
deriving DecidableEq, Repr

/-- Repeated `ByteW` until `io.EOF` (fuel-bounded; any fuel exceeding the
total byte count suffices, see `travP_fin`). -/
def traverseW (N : Nat) : Nat → State → Nat → TravOut
  | 0, _, w => ⟨[], false, w, 0⟩
  | fuel + 1, s, w =>
    let bo := s.ByteW N w
    match bo.res with
    | .ok b s' =>
      let t := traverseW N fuel s' bo.world
      ⟨b :: t.out, t.fin, t.world, bo.pulls + t.pulls⟩
    | .eof => ⟨[], true, bo.world, bo.pulls⟩
    | .fault => ⟨[], false, bo.world, bo.pulls⟩

/-- Uninstrumented traversal (a pure function of the state). -/
def traverseP : Nat → State → List Nat × Bool
  | 0, _ => ([], false)
  | fuel + 1, s =>
    match s.Byte with
    | .ok b s' =>
      let t := traverseP fuel s'
      (b :: t.1, t.2)
    | .eof => ([], true)
    | .fault => ([], false)

/-- The bytes remaining in the stream from a given position. -/
def streamOf : List (List Nat) → Nat → List Nat
  | [], _ => []
  | buf :: rest, d => buf.drop d ++ rest.flatten

theorem byteWGo_res (N : Nat) :
    ∀ (chunks : List (List Nat)) (datap offset line column w : Nat),
      (byteWGo N chunks datap offset line column w).res
        = byteGo chunks datap offset line column
  | [], _, _, _, _, _ => rfl
  | buf :: rest, datap, offset, line, column, w => by
    unfold byteWGo byteGo
    split_ifs with hlt
    · rfl
    · cases rest with
      | nil => rfl
      | cons nbuf rest2 =>
        dsimp only
        exact byteWGo_res N (nbuf :: rest2) 0 offset line column _

theorem byteWGo_world_mono (N : Nat) :
    ∀ (chunks : List (List Nat)) (datap offset line column w : Nat),
      w ≤ (byteWGo N chunks datap offset line column w).world
  | [], _, _, _, _, _ => le_refl _
  | buf :: rest, datap, offset, line, column, w => by
    unfold byteWGo
    split_ifs with hlt
    · exact le_refl _
    · cases rest with
      | nil => exact le_refl _
      | cons nbuf rest2 =>
        dsimp only
        exact le_trans (le_max_left _ _)
          (byteWGo_world_mono N (nbuf :: rest2) 0 offset line column _)

theorem byteWGo_inv (N : Nat) :
    ∀ (chunks : List (List Nat)) (datap offset line column w : Nat),
      chunks ≠ [] → N - chunks.length < w →
      ((byteWGo N chunks datap offset line column w).res = .eof →
        N ≤ (byteWGo N chunks datap offset line column w).world) ∧
      (∀ b s', (byteWGo N chunks datap offset line column w).res = .ok b s' →
        s'.chunks ≠ [] ∧
        N - s'.chunks.length
          < (byteWGo N chunks datap offset line column w).world)
  | [], _, _, _, _, _, hne, _ => absurd rfl hne
  | buf :: rest, datap, offset, line, column, w, hne, hinv => by
    unfold byteWGo
    split_ifs with hlt
    · dsimp only
      refine ⟨fun hcon => (by cases hcon), fun b s' hok => ?_⟩
      injection hok with hb hs
      subst hs
      refine ⟨by simp [State.consume], ?_⟩
      simpa [State.consume] using hinv
    · cases rest with
      | nil =>
        dsimp only
        refine ⟨fun _ => ?_, fun b s' hok => (by cases hok)⟩
        simp only [List.length_cons, List.length_nil] at hinv
        omega
      | cons nbuf rest2 =>
        dsimp only
        refine byteWGo_inv N (nbuf :: rest2) 0 offset line column _ (by simp) ?_
        have hmax := le_max_right w (N - (rest2.length + 1) + 1)
        simp only [List.length_cons]
        omega

theorem byteWGo_frozen (N : Nat) :
    ∀ (chunks : List (List Nat)) (datap offset line column w : Nat),
      N ≤ w → 1 ≤ w →
      byteWGo N chunks datap offset line column w
        = ⟨byteGo chunks datap offset line column, w, 0⟩
  | [], _, _, _, _, _, _, _ => rfl
  | buf :: rest, datap, offset, line, column, w, hN, h1 => by
    unfold byteWGo byteGo
    split_ifs with hlt
    · rfl
    · cases rest with
      | nil => rfl
      | cons nbuf rest2 =>
        dsimp only
        have hi1 : N - (rest2.length + 1) < w := by omega
        rw [if_pos hi1, Nat.max_eq_left (by omega)]
        rw [byteWGo_frozen N (nbuf :: rest2) 0 offset line column w hN h1]
        rfl

theorem byteGo_ok_stream :
    ∀ (chunks : List (List Nat)) (datap offset line column b : Nat)
      (s' : State), byteGo chunks datap offset line column = .ok b s' →
      streamOf chunks datap = b :: streamOf s'.chunks s'.datap
  | [], _, _, _, _, _, s', h => by cases h
  | buf :: rest, datap, offset, line, column, b, s', h => by
    unfold byteGo at h
    split_ifs at h with hlt
    · dsimp only at h
      injection h with hb hs
      subst hb
      subst hs
      show buf.drop datap ++ rest.flatten
        = buf.get ⟨datap, hlt⟩ :: (buf.drop (datap + 1) ++ rest.flatten)
      rw [List.drop_eq_getElem_cons hlt]
      simp only [List.get_eq_getElem, List.cons_append]
    · cases rest with
      | nil => cases h
      | cons nbuf rest2 =>
        have hs := byteGo_ok_stream (nbuf :: rest2) 0 offset line column b s' h
        show buf.drop datap ++ (nbuf :: rest2).flatten = _
        rw [List.drop_eq_nil_of_le (by omega)]
        rw [← hs]
        simp [streamOf]

theorem byteGo_not_fault :
    ∀ (chunks : List (List Nat)) (datap offset line column : Nat),
      chunks ≠ [] → byteGo chunks datap offset line column ≠ .fault
  | [], _, _, _, _, hne => absurd rfl hne
  | buf :: rest, datap, offset, line, column, _ => by
    unfold byteGo
    split_ifs with hlt
    · intro hcon
      cases hcon
    · cases rest with
      | nil => intro hcon; cases hcon
      | cons nbuf rest2 =>
        exact byteGo_not_fault (nbuf :: rest2) 0 offset line column (by simp)

theorem byteGo_ok_chunks_ne :
    ∀ (chunks : List (List Nat)) (datap offset line column b : Nat)
      (s' : State), byteGo chunks datap offset line column = .ok b s' →
      s'.chunks ≠ []
  | [], _, _, _, _, _, s', h => by cases h
  | buf :: rest, datap, offset, line, column, b, s', h => by
    unfold byteGo at h
    split_ifs at h with hlt
    · dsimp only at h
      injection h with hb hs
      subst hs
      simp [State.consume]
    · cases rest with
      | nil => cases h
      | cons nbuf rest2 =>
        exact byteGo_ok_chunks_ne (nbuf :: rest2) 0 offset line column b s' h

theorem travP_fin :
    ∀ (fuel : Nat) (s : State), s.chunks ≠ [] →
      (streamOf s.chunks s.datap).length < fuel → (traverseP fuel s).2 = true
  | 0, s, _, hlen => by omega
  | fuel + 1, s, hne, hlen => by
    unfold traverseP
    cases hB : s.Byte with
    | ok b s' =>
      dsimp only
      have hs := byteGo_ok_stream s.chunks s.datap s.offset s.line s.column
        b s' hB
      refine travP_fin fuel s' (byteGo_ok_chunks_ne s.chunks s.datap s.offset
        s.line s.column b s' hB) ?_
      rw [hs] at hlen
      simp only [List.length_cons] at hlen
      omega
    | eof => rfl
    | fault =>
      exact absurd hB (byteGo_not_fault s.chunks s.datap s.offset s.line
        s.column hne)

theorem travW_out_fin (N : Nat) :
    ∀ (fuel : Nat) (s : State) (w : Nat),
      (traverseW N fuel s w).out = (traverseP fuel s).1 ∧
      (traverseW N fuel s w).fin = (traverseP fuel s).2
  | 0, s, w => ⟨rfl, rfl⟩
  | fuel + 1, s, w => by
    unfold traverseW traverseP
    dsimp only
    have hres : (s.ByteW N w).res = s.Byte :=
      byteWGo_res N s.chunks s.datap s.offset s.line s.column w
    rw [hres]
    cases hB : s.Byte with
    | ok b s' =>
      dsimp only
      have ih := travW_out_fin N fuel s' (s.ByteW N w).world
      exact ⟨by rw [ih.1], ih.2⟩
    | eof => exact ⟨rfl, rfl⟩
    | fault => exact ⟨rfl, rfl⟩

theorem travW_world_mono (N : Nat) :
    ∀ (fuel : Nat) (s : State) (w : Nat),
      w ≤ (traverseW N fuel s w).world
  | 0, s, w => le_refl _
  | fuel + 1, s, w => by
    unfold traverseW
    dsimp only
    have hmono : w ≤ (s.ByteW N w).world :=
      byteWGo_world_mono N s.chunks s.datap s.offset s.line s.column w
    cases hB : (s.ByteW N w).res with
    | ok b s' =>
      dsimp only
      exact le_trans hmono (travW_world_mono N fuel s' _)
    | eof => exact hmono
    | fault => exact hmono

theorem travW_inv (N : Nat) :
    ∀ (fuel : Nat) (s : State) (w : Nat), s.chunks ≠ [] →
      N - s.chunks.length < w → (traverseW N fuel s w).fin = true →
      N ≤ (traverseW N fuel s w).world
  | 0, s, w, _, _, hfin => by simp [traverseW] at hfin
  | fuel + 1, s, w, hne, hinv, hfin => by
    unfold traverseW at hfin ⊢
    dsimp only at hfin ⊢
    have hstep := byteWGo_inv N s.chunks s.datap s.offset s.line s.column w
      hne hinv
    cases hB : (s.ByteW N w).res with
    | ok b s' =>
      rw [hB] at hfin
      dsimp only at hfin ⊢
      obtain ⟨hne2, hinv2⟩ := hstep.2 b s' hB
      exact travW_inv N fuel s' (s.ByteW N w).world hne2 hinv2 hfin
    | eof =>
      exact hstep.1 hB
    | fault =>
      rw [hB] at hfin
      cases hfin

theorem travW_frozen (N : Nat) :
    ∀ (fuel : Nat) (s : State) (w : Nat), N ≤ w → 1 ≤ w →
      (traverseW N fuel s w).world = w ∧ (traverseW N fuel s w).pulls = 0
  | 0, s, w, _, _ => ⟨rfl, rfl⟩
  | fuel + 1, s, w, hN, h1 => by
    unfold traverseW
    dsimp only
    have hfro : s.ByteW N w
        = ⟨byteGo s.chunks s.datap s.offset s.line s.column, w, 0⟩ :=
      byteWGo_frozen N s.chunks s.datap s.offset s.line s.column w hN h1
    rw [hfro]
    cases hB : byteGo s.chunks s.datap s.offset s.line s.column with
    | ok b s' =>
      dsimp only
      have ih := travW_frozen N fuel s' w hN h1
      exact ⟨ih.1, by rw [ih.2]⟩
    | eof => exact ⟨rfl, rfl⟩
    | fault => exact ⟨rfl, rfl⟩

end Chunked

/-- C7: over a one-shot pull source whose successive pulls yield the chunks
`c :: cs`, a full `Byte()` traversal from the initial state terminates in
`io.EOF`, and a second, independent traversal from the SAME initial state
returns the identical byte sequence, also terminates in `io.EOF`, and
performs ZERO pulls — every `ensure_next` finds the cached node that the
first traversal materialized, leaving the world unchanged. -/
theorem replay_traversal_is_idempotent (c : List Nat) (cs : List (List Nat)) :
    ∀ t1 t2 : Chunked.TravOut,
      t1 = Chunked.traverseW (c :: cs).length ((c :: cs).flatten.length + 1)
        (Chunked.NewStateReaderChunks (c :: cs)) 1 →
      t2 = Chunked.traverseW (c :: cs).length ((c :: cs).flatten.length + 1)
        (Chunked.NewStateReaderChunks (c :: cs)) t1.world →
      t1.fin = true ∧ t2.fin = true ∧ t2.out = t1.out ∧
      t2.pulls = 0 ∧ t2.world = t1.world := by
  intro t1 t2 ht1 ht2
  have hs0c : (Chunked.NewStateReaderChunks (c :: cs)).chunks = c :: cs := rfl
  have hne : (Chunked.NewStateReaderChunks (c :: cs)).chunks ≠ [] := by
    rw [hs0c]
    simp
  have hstream :
      (Chunked.streamOf (Chunked.NewStateReaderChunks (c :: cs)).chunks
        (Chunked.NewStateReaderChunks (c :: cs)).datap).length
        < (c :: cs).flatten.length + 1 := by
    show (Chunked.streamOf (c :: cs) 0).length < _
    simp [Chunked.streamOf]
  have hfin1 : t1.fin = true := by
    rw [ht1]
    rw [(Chunked.travW_out_fin _ _ _ _).2]
    exact Chunked.travP_fin _ _ hne hstream
  have hinv0 : (c :: cs).length
      - (Chunked.NewStateReaderChunks (c :: cs)).chunks.length < 1 := by
    rw [hs0c]
    omega
  have hge : (c :: cs).length ≤ t1.world := by
    rw [ht1]
    exact Chunked.travW_inv _ _ _ _ hne hinv0 (ht1 ▸ hfin1)
  have h1w : 1 ≤ t1.world := by
    rw [ht1]
    exact Chunked.travW_world_mono _ _ _ _
  have hfro := Chunked.travW_frozen (c :: cs).length
    ((c :: cs).flatten.length + 1) (Chunked.NewStateReaderChunks (c :: cs))
    t1.world hge h1w
  refine ⟨hfin1, ?_, ?_, ?_, ?_⟩
  · rw [ht2, (Chunked.travW_out_fin _ _ _ _).2,
      ← (Chunked.travW_out_fin _ _ _ 1).2, ← ht1]
    exact hfin1
  · rw [ht2, ht1, (Chunked.travW_out_fin _ _ _ _).1,
      ← (Chunked.travW_out_fin _ _ _ 1).1]
  · rw [ht2]
    exact hfro.2
  · rw [ht2]
    exact hfro.1

/-!
Defensive copy in `NewStateBytes` (C10).  Go slices alias a heap buffer, so
the aliasing-relevant step — `newDataBytes` doing `make([]byte, len(b))`
plus `copy(d.buf, b)` rather than storing `b` itself — is modelled over an
explicit heap: a list of buffers addressed by index.  `newDataBytesH`
allocates a fresh cell holding a copy of the argument cell's current
contents and returns its address; a later write through the caller's
reference touches only the caller's cell.
-/

/-- Read a heap cell. -/
def heapRead (store : List (List Nat)) (ref : Nat) : List Nat :=
  store.getD ref []

/-- Write a heap cell in place (the caller mutating its slice `b`). -/
def heapWrite (store : List (List Nat)) (ref : Nat) (v : List Nat) :
    List (List Nat) :=
  store.set ref v

/-- `newDataBytes(b)`: allocate a fresh buffer of `len(b)` and copy `b` into
it (`make` + `copy`); returns the new heap and the new node's buffer
address. -/
def newDataBytesH (store : List (List Nat)) (ref : Nat) :
    List (List Nat) × Nat :=
  (store ++ [heapRead store ref], store.length)

/-- C10: `NewStateBytes` takes a defensive copy — after constructing the
data node from slice `b` and then mutating `b` through the caller's
reference, the node's buffer still holds the original bytes, so the
(pure-function-of-the-buffer) reads `Byte()`/`Rune()` and captured spans on
any state built over that node observe the original contents. -/
theorem newDataBytes_defensive_copy (store : List (List Nat)) (ref : Nat)
    (v : List Nat) (h : ref < store.length) :
    heapRead (heapWrite (newDataBytesH store ref).1 ref v)
        (newDataBytesH store ref).2
      = heapRead store ref ∧
    Chunked.NewStateBytes
        (heapRead (heapWrite (newDataBytesH store ref).1 ref v)
          (newDataBytesH store ref).2)
      = Chunked.NewStateBytes (heapRead store ref) := by
  have heq : heapRead (heapWrite (newDataBytesH store ref).1 ref v)
      (newDataBytesH store ref).2 = heapRead store ref := by
    show ((store ++ [heapRead store ref]).set ref v).getD store.length []
      = heapRead store ref
    have hne : ref ≠ store.length := by omega
    rw [List.getD_eq_getElem?_getD, List.getElem?_set_ne hne]
    rw [List.getElem?_append_right (by omega)]
    simp
  exact ⟨heq, by rw [heq]⟩

/-- Witness for C10: a two-cell heap, overwriting the source slice after
construction leaves the node's buffer at the original `[1, 2, 3]`. -/
theorem newDataBytes_defensive_copy_witness :
    (0 < 1 ∧
      heapRead (heapWrite (newDataBytesH [[1, 2, 3]] 0).1 0 [9, 9])
        (newDataBytesH [[1, 2, 3]] 0).2 = [1, 2, 3]) := by
  refine ⟨by decide, ?_⟩
  have h := newDataBytes_defensive_copy [[1, 2, 3]] 0 [9, 9] (by decide)
  rw [h.1]
  rfl

/-- Witness for C7: pulls `[61 62][63]`; the first traversal reads all three
bytes performing one pull, the second returns the same bytes with zero
pulls. -/
theorem replay_traversal_is_idempotent_witness :
    (Chunked.traverseW 2 4
        (Chunked.NewStateReaderChunks [[0x61, 0x62], [0x63]]) 1).fin = true ∧
    (Chunked.traverseW 2 4 (Chunked.NewStateReaderChunks [[0x61, 0x62], [0x63]])
        ((Chunked.traverseW 2 4
          (Chunked.NewStateReaderChunks [[0x61, 0x62], [0x63]]) 1).world)).fin
      = true ∧
    (Chunked.traverseW 2 4 (Chunked.NewStateReaderChunks [[0x61, 0x62], [0x63]])
        ((Chunked.traverseW 2 4
          (Chunked.NewStateReaderChunks [[0x61, 0x62], [0x63]]) 1).world)).out
      = (Chunked.traverseW 2 4
          (Chunked.NewStateReaderChunks [[0x61, 0x62], [0x63]]) 1).out ∧
    (Chunked.traverseW 2 4 (Chunked.NewStateReaderChunks [[0x61, 0x62], [0x63]])
        ((Chunked.traverseW 2 4
          (Chunked.NewStateReaderChunks [[0x61, 0x62], [0x63]]) 1).world)).pulls
      = 0 ∧
    (Chunked.traverseW 2 4 (Chunked.NewStateReaderChunks [[0x61, 0x62], [0x63]])
        ((Chunked.traverseW 2 4
          (Chunked.NewStateReaderChunks [[0x61, 0x62], [0x63]]) 1).world)).world
      = (Chunked.traverseW 2 4
          (Chunked.NewStateReaderChunks [[0x61, 0x62], [0x63]]) 1).world :=
  replay_traversal_is_idempotent [0x61, 0x62] [[0x63]] _ _ rfl rfl
